import Mathlib

/-!
Verification of the change-feed consistency checker
(`fdbserver/workloads/ChangeFeeds.actor.cpp`).

Shallow embedding:
* keys and values are byte sequences, modelled as `List Nat`; the ordering is
  the byte-lexicographic `operator<` of `KeyRef` (memcmp, then length);
* the `std::map<KeyRef, ValueRef>` inside `advanceData` is a strictly
  key-sorted list of entries; `operator[]` assignment is `mapInsert` and
  `erase(lower_bound(b), lower_bound(e))` is `eraseRange`, which is partial
  (`Option`): erasing over an invalid iterator range (when `lower_bound(b)`
  lies after `lower_bound(e)`) is undefined behaviour in C++ and is
  modelled as `none`, which then propagates through `advanceData`;
* the two stream-consuming actors `readDatabase` and `readMutations` are
  modelled as functions of the trace of what the environment delivers:
  a list of attempts (each with its own read version, chunk list and
  terminal event) for `readDatabase`, and a chunk list plus terminal event
  for `readMutations`; `res.back()` on an empty delivered chunk is
  undefined behaviour and is modelled by a dedicated result constructor.
-/

namespace ChangeFeeds

/-- A key is a byte sequence (bytes as `Nat`). -/
abbrev Key := List Nat

/-- A value is a byte sequence. -/
abbrev Value := List Nat

/-- Byte-lexicographic strict order on keys, the `KeyRef::operator<` used by
`std::map<KeyRef, ValueRef>`: compare bytes left to right; a strict prefix is
smaller. -/
def keyLt : Key → Key → Bool
  | [], [] => false
  | [], _ :: _ => true
  | _ :: _, [] => false
  | a :: as, b :: bs => if a < b then true else if b < a then false else keyLt as bs

/-- `a ≤ b` on keys, derived from `keyLt` as in the C++ comparator. -/
def keyLe (a b : Key) : Bool := !(keyLt b a)

/-- `KeyValueRef`: one key/value entry. -/
structure KeyValueRef where
  key : Key
  value : Value
deriving DecidableEq

/-- `MutationRef`, restricted to the two mutation types the workload's
`ASSERT` admits: `SetValue` and `ClearRange` (`param1`/`param2` as in the
source). -/
inductive MutationRef where
  | SetValue (param1 : Key) (param2 : Value)
  | ClearRange (param1 : Key) (param2 : Key)
deriving DecidableEq

/-- `MutationsAndVersionRef`: one mutation batch with its commit version. -/
structure MutationsAndVersionRef where
  mutations : List MutationRef
  version : Nat
deriving DecidableEq

/-- The `std::map` entry order: strictly sorted by `keyLt` on keys. -/
def KeySorted (l : List KeyValueRef) : Prop :=
  l.Pairwise (fun a b => keyLt a.key b.key = true)

/-- `data[k] = v` on the ordered map: insert `⟨k, v⟩` at its ordered
position, overwriting an entry with an equal key. -/
def mapInsert (k : Key) (v : Value) : List KeyValueRef → List KeyValueRef
  | [] => [⟨k, v⟩]
  | kv :: rest =>
    if keyLt k kv.key then ⟨k, v⟩ :: kv :: rest
    else if keyLt kv.key k then kv :: mapInsert k v rest
    else ⟨k, v⟩ :: rest

/-- Position of `lower_bound(x)`: the number of leading entries whose key is
strictly below `x` (for a sorted list this is the first entry `≥ x`). -/
def lowerBoundIdx (x : Key) : List KeyValueRef → Nat
  | [] => 0
  | kv :: l => if keyLt kv.key x then lowerBoundIdx x l + 1 else 0

/-- `data.erase(data.lower_bound(b), data.lower_bound(e))`.  The C++ call
requires the iterator range to be valid: when `lower_bound(b)` lies after
`lower_bound(e)` the behaviour is undefined, modelled as `none`. -/
def eraseRange (b e : Key) (l : List KeyValueRef) : Option (List KeyValueRef) :=
  if lowerBoundIdx b l ≤ lowerBoundIdx e l then
    some (l.take (lowerBoundIdx b l) ++ l.drop (lowerBoundIdx e l))
  else none

/-- One iteration of the inner mutation loop of `advanceData`. -/
def applyMutation (d : List KeyValueRef) : MutationRef → Option (List KeyValueRef)
  | .SetValue k v => some (mapInsert k v d)
  | .ClearRange b e => eraseRange b e d

/-- The inner loop of `advanceData` over one batch's mutations. -/
def applyMutationList (d : List KeyValueRef) : List MutationRef → Option (List KeyValueRef)
  | [] => some d
  | m :: ms =>
    match applyMutation d m with
    | none => none
    | some d' => applyMutationList d' ms

/-- The outer loop of `advanceData` over the mutation batches, in the order
they appear in the log. -/
def applyBatches (d : List KeyValueRef) : List MutationsAndVersionRef → Option (List KeyValueRef)
  | [] => some d
  | mv :: rest =>
    match applyMutationList d mv.mutations with
    | none => none
    | some d' => applyBatches d' rest

/-- The seeding loop of `advanceData`: `for (kv : source) data[kv.key] = kv.value`
starting from an empty map. -/
def seedMap (source : List KeyValueRef) : List KeyValueRef :=
  source.foldl (fun d kv => mapInsert kv.key kv.value d) []

/-- `advanceData(source, mutations)`: seed the ordered map with `source`,
apply every batch's mutations in order, and emit the map in key order
(the sorted entry list itself).  `none` models reaching C++ undefined
behaviour (an invalid `erase` range). -/
def advanceData (source : List KeyValueRef) (mutations : List MutationsAndVersionRef) :
    Option (List KeyValueRef) :=
  applyBatches (seedMap source) mutations

/-- Lookup in the entry list (first entry with the given key). -/
def mapLookup (l : List KeyValueRef) (k : Key) : Option Value :=
  (l.find? (fun kv => decide (kv.key = k))).map (·.value)

/-- Left-biased choice on `Option` (first result wins). -/
def oor {α : Type} : Option α → Option α → Option α
  | some v, _ => some v
  | none, b => b

/-- The value of the last entry of `source` carrying key `k`, if any. -/
def lastValue (source : List KeyValueRef) (k : Key) : Option Value :=
  (source.reverse.find? (fun kv => decide (kv.key = k))).map (·.value)

/-- The payload of a `SetValue` mutation on key `k`. -/
def setPayload (k : Key) : MutationRef → Option Value
  | .SetValue k' v => if k' = k then some v else none
  | .ClearRange _ _ => none

/-- All mutations of a log, flattened in batch order. -/
def allMutations : List MutationsAndVersionRef → List MutationRef
  | [] => []
  | mv :: rest => mv.mutations ++ allMutations rest

/-- The value written by the last `SetValue` on key `k` in a flat mutation
list, if any. -/
def lastSetValue (ms : List MutationRef) (k : Key) : Option Value :=
  ms.reverse.findSome? (setPayload k)

/-- `true` on mutations whose type is `SetValue`. -/
def isSetMutation : MutationRef → Bool
  | .SetValue _ _ => true
  | .ClearRange _ _ => false

/-- Well-formedness of a mutation: a `ClearRange` must have ordered bounds
(`SetValue` is always well-formed). -/
def mutationWF : MutationRef → Bool
  | .SetValue _ _ => true
  | .ClearRange b e => keyLe b e

/-- Result of `compareData`, combining the boolean return value with the
payload of the trace event it emits: `Match` for `true`, `SizeMismatch`
for the `ChangeFeedSizeMismatch` event (both sizes), `MutationMismatch`
for the `ChangeFeedMutationMismatch` event (index, keys, values of both
sides). -/
inductive CompareResult where
  | Match
  | SizeMismatch (srcSize destSize : Nat)
  | MutationMismatch (index : Nat) (srcKey destKey : Key) (srcValue destValue : Value)
deriving DecidableEq

/-- The element-wise loop of `compareData`, carrying the running index. -/
def compareLoop (i : Nat) : List KeyValueRef → List KeyValueRef → CompareResult
  | s :: ss, d :: ds =>
    if s = d then compareLoop (i + 1) ss ds
    else .MutationMismatch i s.key d.key s.value d.value
  | _, _ => .Match

/-- `compareData(source, dest)`: report a size mismatch when the lengths
differ, otherwise scan for the first differing entry. -/
def compareData (source dest : List KeyValueRef) : CompareResult :=
  if source.length ≠ dest.length then .SizeMismatch source.length dest.length
  else compareLoop 0 source dest

/-- Terminal event of one `readDatabase` attempt's range stream: the
`end_of_stream` error, an error `tr.onError` recovers from (retryable), or
an error `tr.onError` rethrows (fatal). -/
inductive ScanTerminal where
  | endOfStream
  | retryableError
  | fatalError
deriving DecidableEq

/-- One attempt of `readDatabase`'s retry loop, as delivered by the
environment: the read version `tr.getReadVersion()` returns, the chunks the
range stream yields, and how the stream terminates. -/
structure ReadAttempt where
  readVersion : Nat
  chunks : List (List KeyValueRef)
  terminal : ScanTerminal
deriving DecidableEq

/-- Flatten the chunk list accumulated by `output.append(...)`. -/
def flattenKVChunks : List (List KeyValueRef) → List KeyValueRef
  | [] => []
  | c :: rest => c ++ flattenKVChunks rest

/-- `readDatabase`: per retry attempt, `output` and `readVersion` are `state`
variables re-initialised inside the `loop`, so a retryable error discards the
partial accumulation and the next attempt starts afresh with its own read
version.  `end_of_stream` returns the current attempt's accumulated chunks
with its read version; a retryable error moves on to the next attempt; a
fatal error (rethrown by `tr.onError`) aborts the call (`none`); an
exhausted trace means the call has not returned (`none`). -/
def readDatabase : List ReadAttempt → Option (List KeyValueRef × Nat)
  | [] => none
  | a :: rest =>
    match a.terminal with
    | .endOfStream => some (flattenKVChunks a.chunks, a.readVersion)
    | .retryableError => readDatabase rest
    | .fatalError => none

/-- Terminal event of the change-feed stream in `readMutations`:
`end_of_stream` or any other error (identified by its code). -/
inductive FeedTerminal where
  | endOfStream
  | streamError (code : Nat)
deriving DecidableEq

/-- Result of `readMutations`: normal return of the accumulated log,
propagation of a non-`end_of_stream` error to the caller (same code,
rethrown by `throw`), or the undefined behaviour of `res.back()` on an
empty delivered chunk. -/
inductive FeedReadResult where
  | ok (log : List MutationsAndVersionRef)
  | propagated (code : Nat)
  | undefinedBack
deriving DecidableEq

/-- Flatten the chunk list accumulated by `output.append(...)`. -/
def flattenMVChunks : List (List MutationsAndVersionRef) → List MutationsAndVersionRef
  | [] => []
  | c :: rest => c ++ flattenMVChunks rest

/-- The stream-consuming loop of `readMutations`: each delivered chunk is
appended to `output` and the cursor `begin` becomes
`res.back().version + 1`; `res.back()` on an empty chunk is undefined.
When the chunks are exhausted the stream's terminal event is handled by the
`catch`: `end_of_stream` returns `output`, anything else is rethrown. -/
def readMutationsLoop (output : List MutationsAndVersionRef) (beginVer : Nat) :
    List (List MutationsAndVersionRef) → FeedTerminal → FeedReadResult
  | [], .endOfStream => .ok output
  | [], .streamError c => .propagated c
  | [] :: _, _ => .undefinedBack
  | (m :: ms) :: rest, t =>
    readMutationsLoop (output ++ (m :: ms))
      (((m :: ms).getLast (List.cons_ne_nil m ms)).version + 1) rest t

/-- `readMutations(cx, rangeID, begin, end)` as a function of the delivered
chunk trace and the stream's terminal event. -/
def readMutations (beginVer : Nat) (chunks : List (List MutationsAndVersionRef))
    (t : FeedTerminal) : FeedReadResult :=
  readMutationsLoop [] beginVer chunks t

/-! ### Order lemmas for `keyLt` -/

theorem keyLt_irrefl (a : Key) : keyLt a a = false := by
  induction a with
  | nil => rfl
  | cons x xs ih => simp [keyLt, ih]

theorem keyLt_trans : ∀ {a b c : Key}, keyLt a b = true → keyLt b c = true → keyLt a c = true := by
  intro a
  induction a with
  | nil =>
    intro b c hab hbc
    cases b with
    | nil => exact absurd hab (by simp [keyLt])
    | cons y ys =>
      cases c with
      | nil => exact absurd hbc (by simp [keyLt])
      | cons z zs => simp [keyLt]
  | cons x xs ih =>
    intro b c hab hbc
    cases b with
    | nil => exact absurd hab (by simp [keyLt])
    | cons y ys =>
      cases c with
      | nil => exact absurd hbc (by simp [keyLt])
      | cons z zs =>
        simp only [keyLt] at hab hbc ⊢
        by_cases hxy : x < y
        · by_cases hyz : y < z
          · simp [Nat.lt_trans hxy hyz]
          · simp only [if_neg hyz] at hbc
            by_cases hzy : z < y
            · simp [hzy] at hbc
            · have : y = z := Nat.le_antisymm (Nat.le_of_not_lt hzy) (Nat.le_of_not_lt hyz)
              subst this
              simp [hxy]
        · simp only [if_neg hxy] at hab
          by_cases hyx : y < x
          · simp [hyx] at hab
          · have hxy' : x = y := Nat.le_antisymm (Nat.le_of_not_lt hyx) (Nat.le_of_not_lt hxy)
            subst hxy'
            simp only [if_neg hxy, if_neg hyx] at hab
            by_cases hxz : x < z
            · simp [hxz]
            · simp only [if_neg hxz] at hbc ⊢
              by_cases hzx : z < x
              · simp [hzx] at hbc
              · simp only [if_neg hzx] at hbc ⊢
                exact ih hab hbc

theorem keyLt_asymm {a b : Key} (h : keyLt a b = true) : keyLt b a = false := by
  by_contra hba
  have hba' : keyLt b a = true := by
    cases hb : keyLt b a
    · exact absurd hb hba
    · rfl
  have := keyLt_trans h hba'
  rw [keyLt_irrefl] at this
  exact Bool.false_ne_true this

theorem keyEq_of_not_lt : ∀ {a b : Key}, keyLt a b = false → keyLt b a = false → a = b := by
  intro a
  induction a with
  | nil =>
    intro b hab _
    cases b with
    | nil => rfl
    | cons y ys => exact absurd hab (by simp [keyLt])
  | cons x xs ih =>
    intro b hab hba
    cases b with
    | nil => exact absurd hba (by simp [keyLt])
    | cons y ys =>
      simp only [keyLt] at hab hba
      by_cases hxy : x < y
      · simp [hxy] at hab
      · by_cases hyx : y < x
        · simp [hyx, if_neg (Nat.lt_asymm hyx)] at hba
        · have hxy' : x = y := Nat.le_antisymm (Nat.le_of_not_lt hyx) (Nat.le_of_not_lt hxy)
          subst hxy'
          simp only [if_neg hxy, if_neg hyx] at hab hba
          rw [ih hab hba]

theorem keyLt_of_lt_of_le {x b e : Key} (h₁ : keyLt x b = true) (h₂ : keyLe b e = true) :
    keyLt x e = true := by
  unfold keyLe at h₂
  cases hbe : keyLt b e
  · cases heb : keyLt e b
    · exact keyEq_of_not_lt hbe heb ▸ h₁
    · rw [heb] at h₂; exact absurd h₂ (by simp)
  · exact keyLt_trans h₁ hbe

theorem keyLt_of_le_of_lt {b x e : Key} (h₁ : keyLe b x = true) (h₂ : keyLt x e = true) :
    keyLt b e = true := by
  unfold keyLe at h₁
  cases hbx : keyLt b x
  · cases hxb : keyLt x b
    · exact keyEq_of_not_lt hbx hxb ▸ h₂
    · rw [hxb] at h₁; exact absurd h₁ (by simp)
  · exact keyLt_trans hbx h₂

theorem keyLe_of_lt {a b : Key} (h : keyLt a b = true) : keyLe a b = true := by
  unfold keyLe
  rw [keyLt_asymm h]
  rfl

theorem keyLe_trans_lt {b x y : Key} (h₁ : keyLe b x = true) (h₂ : keyLt x y = true) :
    keyLe b y = true := by
  unfold keyLe at h₁ ⊢
  cases hyb : keyLt y b
  · rfl
  · exfalso
    have hxb : keyLt x b = true := keyLt_trans h₂ hyb
    rw [hxb] at h₁
    exact absurd h₁ (by simp)

/-! ### `oor` helpers -/

theorem oor_none {α : Type} (b : Option α) : oor none b = b := rfl

theorem oor_some {α : Type} (v : α) (b : Option α) : oor (some v) b = some v := rfl

theorem oor_assoc {α : Type} (a b c : Option α) : oor (oor a b) c = oor a (oor b c) := by
  cases a <;> rfl

theorem oor_map {α β : Type} (f : α → β) (a b : Option α) :
    (oor a b).map f = oor (a.map f) (b.map f) := by
  cases a <;> rfl

/-! ### `mapInsert` lemmas -/

theorem mapInsert_mem {k : Key} {v : Value} :
    ∀ {d : List KeyValueRef} {x : KeyValueRef}, x ∈ mapInsert k v d →
      x = ⟨k, v⟩ ∨ x ∈ d := by
  intro d
  induction d with
  | nil =>
    intro x hx
    simp [mapInsert] at hx
    exact Or.inl hx
  | cons kv rest ih =>
    intro x hx
    simp only [mapInsert] at hx
    by_cases h₁ : keyLt k kv.key
    · simp [h₁] at hx
      rcases hx with h | h | h
      · exact Or.inl h
      · exact Or.inr (by simp [h])
      · exact Or.inr (by simp [h])
    · by_cases h₂ : keyLt kv.key k
      · simp [h₁, h₂] at hx
        rcases hx with h | h
        · exact Or.inr (by simp [h])
        · rcases ih h with h' | h'
          · exact Or.inl h'
          · exact Or.inr (by simp [h'])
      · simp [h₁, h₂] at hx
        rcases hx with h | h
        · exact Or.inl h
        · exact Or.inr (by simp [h])

theorem mapInsert_sorted {k : Key} {v : Value} :
    ∀ {d : List KeyValueRef}, KeySorted d → KeySorted (mapInsert k v d) := by
  intro d
  induction d with
  | nil =>
    intro _
    simp [mapInsert, KeySorted]
  | cons kv rest ih =>
    intro hd
    rw [KeySorted, List.pairwise_cons] at hd
    obtain ⟨hkv, hrest⟩ := hd
    simp only [mapInsert]
    by_cases h₁ : keyLt k kv.key
    · rw [if_pos h₁]
      rw [KeySorted, List.pairwise_cons]
      constructor
      · intro y hy
        rcases List.mem_cons.mp hy with h | h
        · rw [h]; exact h₁
        · exact keyLt_trans h₁ (hkv y h)
      · rw [KeySorted] at *
        exact List.pairwise_cons.mpr ⟨hkv, hrest⟩
    · rw [if_neg h₁]
      by_cases h₂ : keyLt kv.key k
      · rw [if_pos h₂]
        rw [KeySorted, List.pairwise_cons]
        constructor
        · intro y hy
          rcases mapInsert_mem hy with h | h
          · rw [h]; exact h₂
          · exact hkv y h
        · exact ih hrest
      · rw [if_neg h₂]
        have hk : kv.key = k := keyEq_of_not_lt (by cases h : keyLt kv.key k; rfl; exact absurd h h₂)
          (by cases h : keyLt k kv.key; rfl; exact absurd h h₁)
        rw [KeySorted, List.pairwise_cons]
        constructor
        · intro y hy
          have := hkv y hy
          rw [hk] at this
          exact this
        · exact hrest

theorem mapLookup_cons_self {kv : KeyValueRef} {k : Key} (h : kv.key = k)
    (rest : List KeyValueRef) : mapLookup (kv :: rest) k = some kv.value := by
  rw [mapLookup, List.find?_cons_of_pos _ (by simpa using h)]
  rfl

theorem mapLookup_cons_other {kv : KeyValueRef} {k : Key} (h : kv.key ≠ k)
    (rest : List KeyValueRef) : mapLookup (kv :: rest) k = mapLookup rest k := by
  rw [mapLookup, List.find?_cons_of_neg _ (by simpa using h)]
  rfl

theorem mapLookup_insert_self (k : Key) (v : Value) :
    ∀ (d : List KeyValueRef), mapLookup (mapInsert k v d) k = some v := by
  intro d
  induction d with
  | nil => exact mapLookup_cons_self rfl []
  | cons kv rest ih =>
    simp only [mapInsert]
    by_cases h₁ : keyLt k kv.key
    · rw [if_pos h₁]
      exact mapLookup_cons_self rfl _
    · by_cases h₂ : keyLt kv.key k
      · have hne : kv.key ≠ k := by
          intro h
          rw [h, keyLt_irrefl] at h₂
          exact absurd h₂ (by simp)
        rw [if_neg h₁, if_pos h₂, mapLookup_cons_other hne]
        exact ih
      · rw [if_neg h₁, if_neg h₂]
        exact mapLookup_cons_self rfl _

theorem mapLookup_insert_other {k k' : Key} (hne : k' ≠ k) (v : Value) :
    ∀ (d : List KeyValueRef), mapLookup (mapInsert k v d) k' = mapLookup d k' := by
  intro d
  induction d with
  | nil =>
    rw [show mapInsert k v [] = [⟨k, v⟩] from rfl,
      mapLookup_cons_other (by simpa using Ne.symm hne)]
  | cons kv rest ih =>
    simp only [mapInsert]
    by_cases h₁ : keyLt k kv.key
    · rw [if_pos h₁, mapLookup_cons_other (show (⟨k, v⟩ : KeyValueRef).key ≠ k' from Ne.symm hne)]
    · by_cases h₂ : keyLt kv.key k
      · rw [if_neg h₁, if_pos h₂]
        by_cases hk : kv.key = k'
        · rw [mapLookup_cons_self hk, mapLookup_cons_self hk]
        · rw [mapLookup_cons_other hk, mapLookup_cons_other hk]
          exact ih
      · have hk : kv.key = k := keyEq_of_not_lt
          (by cases h : keyLt kv.key k; rfl; exact absurd h h₂)
          (by cases h : keyLt k kv.key; rfl; exact absurd h h₁)
        rw [if_neg h₁, if_neg h₂,
          mapLookup_cons_other (show (⟨k, v⟩ : KeyValueRef).key ≠ k' from Ne.symm hne),
          mapLookup_cons_other (show kv.key ≠ k' from hk ▸ Ne.symm hne)]

theorem mapLookup_insert (k k' : Key) (v : Value) (d : List KeyValueRef) :
    mapLookup (mapInsert k v d) k' =
      oor (if k = k' then some v else none) (mapLookup d k') := by
  by_cases h : k = k'
  · rw [if_pos h, oor_some, ← h, mapLookup_insert_self]
  · rw [if_neg h, oor_none, mapLookup_insert_other (Ne.symm h)]

/-! ### `seedMap` lemmas -/

theorem find?_append (p : KeyValueRef → Bool) :
    ∀ (l₁ l₂ : List KeyValueRef), (l₁ ++ l₂).find? p = oor (l₁.find? p) (l₂.find? p) := by
  intro l₁ l₂
  induction l₁ with
  | nil => rw [List.nil_append, List.find?_nil, oor_none]
  | cons a l ih =>
    by_cases h : p a
    · rw [List.cons_append, List.find?_cons_of_pos _ h, List.find?_cons_of_pos _ h, oor_some]
    · rw [List.cons_append, List.find?_cons_of_neg _ (by simpa using h),
        List.find?_cons_of_neg _ (by simpa using h), ih]

theorem lastValue_cons (kv : KeyValueRef) (src : List KeyValueRef) (k : Key) :
    lastValue (kv :: src) k =
      oor (lastValue src k) (if kv.key = k then some kv.value else none) := by
  rw [lastValue, List.reverse_cons, find?_append, oor_map, lastValue]
  by_cases h : kv.key = k
  · rw [if_pos h, List.find?_cons_of_pos _ (by simpa using h)]
    rfl
  · rw [if_neg h, List.find?_cons_of_neg _ (by simpa using h)]
    rfl

theorem foldl_insert_sorted :
    ∀ (src : List KeyValueRef) (d : List KeyValueRef), KeySorted d →
      KeySorted (src.foldl (fun d kv => mapInsert kv.key kv.value d) d) := by
  intro src
  induction src with
  | nil => intro d hd; exact hd
  | cons kv rest ih =>
    intro d hd
    rw [List.foldl_cons]
    exact ih _ (mapInsert_sorted hd)

theorem seedMap_sorted (source : List KeyValueRef) : KeySorted (seedMap source) :=
  foldl_insert_sorted source [] (by rw [KeySorted]; exact List.Pairwise.nil)

theorem foldl_insert_lookup :
    ∀ (src : List KeyValueRef) (d : List KeyValueRef) (k : Key),
      mapLookup (src.foldl (fun d kv => mapInsert kv.key kv.value d) d) k =
        oor (lastValue src k) (mapLookup d k) := by
  intro src
  induction src with
  | nil =>
    intro d k
    rw [List.foldl_nil, lastValue, List.reverse_nil, List.find?_nil]
    rfl
  | cons kv rest ih =>
    intro d k
    rw [List.foldl_cons, ih, lastValue_cons, oor_assoc, mapLookup_insert]

theorem seedMap_lookup (source : List KeyValueRef) (k : Key) :
    mapLookup (seedMap source) k = lastValue source k := by
  rw [seedMap, foldl_insert_lookup]
  cases h : lastValue source k
  · rw [oor_none, mapLookup, List.find?_nil]
    rfl
  · rw [oor_some]

theorem mapInsert_append_max {k : Key} (v : Value) :
    ∀ {d : List KeyValueRef}, (∀ y ∈ d, keyLt y.key k = true) →
      mapInsert k v d = d ++ [⟨k, v⟩] := by
  intro d
  induction d with
  | nil => intro _; rfl
  | cons kv rest ih =>
    intro h
    have hkv : keyLt kv.key k = true := h kv (by simp)
    simp only [mapInsert]
    rw [if_neg (by rw [keyLt_asymm hkv]; simp), if_pos hkv,
      ih (fun y hy => h y (by simp [hy])), List.cons_append]

theorem foldl_insert_sorted_id :
    ∀ (src : List KeyValueRef) (d : List KeyValueRef),
      KeySorted (d ++ src) →
      src.foldl (fun d kv => mapInsert kv.key kv.value d) d = d ++ src := by
  intro src
  induction src with
  | nil => intro d _; rw [List.foldl_nil, List.append_nil]
  | cons kv rest ih =>
    intro d hd
    have hmax : ∀ y ∈ d, keyLt y.key kv.key = true := by
      intro y hy
      rw [KeySorted, List.pairwise_append] at hd
      exact hd.2.2 y hy kv (by simp)
    rw [List.foldl_cons, mapInsert_append_max kv.value hmax, ih (d ++ [kv])
      (by rw [List.append_assoc]; simpa using hd), List.append_assoc]
    rfl

theorem seedMap_sorted_id {source : List KeyValueRef} (h : KeySorted source) :
    seedMap source = source := by
  rw [seedMap, foldl_insert_sorted_id source [] (by simpa using h), List.nil_append]

/-! ### `eraseRange` lemmas -/

theorem lowerBoundIdx_mono {b e : Key} (h : keyLe b e = true) :
    ∀ (l : List KeyValueRef), lowerBoundIdx b l ≤ lowerBoundIdx e l := by
  intro l
  induction l with
  | nil => exact Nat.le_refl 0
  | cons kv rest ih =>
    simp only [lowerBoundIdx]
    by_cases hb : keyLt kv.key b
    · rw [if_pos hb, if_pos (keyLt_of_lt_of_le hb h)]
      exact Nat.succ_le_succ ih
    · rw [if_neg hb]
      exact Nat.zero_le _

theorem eraseRange_isSome {b e : Key} (h : keyLe b e = true) (l : List KeyValueRef) :
    (eraseRange b e l).isSome = true := by
  rw [eraseRange, if_pos (lowerBoundIdx_mono h l)]
  rfl

theorem take_append_drop_sublist {i j : Nat} (h : i ≤ j) (l : List KeyValueRef) :
    (l.take i ++ l.drop j).Sublist l := by
  have h₁ : l.take i = (l.take j).take i := by
    rw [List.take_take, Nat.min_eq_left h]
  have h₂ : (l.take i).Sublist (l.take j) := by
    rw [h₁]; exact List.take_sublist i (l.take j)
  have h₃ : (l.take i ++ l.drop j).Sublist (l.take j ++ l.drop j) :=
    List.Sublist.append h₂ (List.Sublist.refl _)
  rwa [List.take_append_drop] at h₃

theorem eraseRange_sorted {b e : Key} {l l' : List KeyValueRef} (hs : KeySorted l)
    (h : eraseRange b e l = some l') : KeySorted l' := by
  rw [eraseRange] at h
  by_cases hle : lowerBoundIdx b l ≤ lowerBoundIdx e l
  · rw [if_pos hle] at h
    obtain rfl : l.take (lowerBoundIdx b l) ++ l.drop (lowerBoundIdx e l) = l' :=
      Option.some_injective _ h
    exact List.Pairwise.sublist (take_append_drop_sublist hle l) hs
  · rw [if_neg hle] at h
    exact absurd h (by simp)

theorem drop_lowerBound_eq_filter {e : Key} :
    ∀ {l : List KeyValueRef}, KeySorted l →
      l.drop (lowerBoundIdx e l) = l.filter (fun kv => !(keyLt kv.key e)) := by
  intro l
  induction l with
  | nil => intro _; rfl
  | cons kv rest ih =>
    intro hs
    rw [KeySorted, List.pairwise_cons] at hs
    obtain ⟨hkv, hrest⟩ := hs
    simp only [lowerBoundIdx]
    by_cases he : keyLt kv.key e
    · rw [if_pos he, List.drop_succ_cons, ih hrest, List.filter_cons_of_neg (by simp [he])]
    · rw [if_neg he, List.drop_zero, List.filter_cons_of_pos (by simp [he]),
        List.filter_eq_self.mpr]
      intro y hy
      have hlt : keyLt kv.key y.key = true := hkv y hy
      simp only [Bool.not_eq_true']
      cases hye : keyLt y.key e
      · rfl
      · exact absurd (keyLt_trans hlt hye) (by simp [he])

theorem eraseRange_sorted_filter {b e : Key} (hbe : keyLe b e = true) :
    ∀ {l : List KeyValueRef}, KeySorted l →
      eraseRange b e l =
        some (l.filter (fun kv => !(keyLe b kv.key && keyLt kv.key e))) := by
  intro l
  induction l with
  | nil => intro _; rfl
  | cons kv rest ih =>
    intro hs
    have hs' : KeySorted rest := by
      rw [KeySorted, List.pairwise_cons] at hs
      exact hs.2
    rw [eraseRange, if_pos (lowerBoundIdx_mono hbe _)]
    simp only [lowerBoundIdx]
    by_cases hb : keyLt kv.key b
    · have he : keyLt kv.key e = true := keyLt_of_lt_of_le hb hbe
      rw [if_pos hb, if_pos he, List.take_succ_cons, List.drop_succ_cons, List.cons_append,
        List.filter_cons_of_pos
          (by simp only [Bool.not_eq_eq_eq_not, Bool.not_true, Bool.and_eq_false_imp]
              intro hle
              rw [keyLe] at hle
              rw [hb] at hle
              exact absurd hle (by simp))]
      have := ih hs'
      rw [eraseRange, if_pos (lowerBoundIdx_mono hbe _)] at this
      rw [Option.some_injective _ this]
    · have hble : keyLe b kv.key = true := by
        rw [keyLe]
        cases h : keyLt kv.key b
        · rfl
        · exact absurd h hb
      rw [if_neg hb, List.take_zero, List.nil_append]
      by_cases he : keyLt kv.key e
      · rw [if_pos he, List.drop_succ_cons,
          List.filter_cons_of_neg (by simp [hble, he]),
          drop_lowerBound_eq_filter hs']
        congr 1
        apply List.filter_congr
        intro y hy
        have : keyLe b y.key = true := by
          rw [KeySorted, List.pairwise_cons] at hs
          exact keyLe_trans_lt hble (hs.1 y hy)
        simp [this]
      · rw [if_neg he, List.drop_zero,
          List.filter_cons_of_pos (by simp [he]),
          List.filter_eq_self.mpr]
        intro y hy
        rw [KeySorted, List.pairwise_cons] at hs
        have hlt : keyLt kv.key y.key = true := hs.1 y hy
        simp only [Bool.not_eq_eq_eq_not, Bool.not_true, Bool.and_eq_false_imp]
        intro _
        cases hye : keyLt y.key e
        · rfl
        · exact absurd (keyLt_trans hlt hye) (by simp [he])

/-! ### Replay lemmas -/

theorem applyMutationList_append (ms₁ : List MutationRef) :
    ∀ (d : List KeyValueRef) (ms₂ : List MutationRef),
      applyMutationList d (ms₁ ++ ms₂) =
        match applyMutationList d ms₁ with
        | none => none
        | some d' => applyMutationList d' ms₂ := by
  induction ms₁ with
  | nil => intro d ms₂; rfl
  | cons m ms ih =>
    intro d ms₂
    rw [List.cons_append]
    simp only [applyMutationList]
    cases applyMutation d m
    · rfl
    · exact ih _ ms₂

theorem applyBatches_eq_flat :
    ∀ (L : List MutationsAndVersionRef) (d : List KeyValueRef),
      applyBatches d L = applyMutationList d (allMutations L) := by
  intro L
  induction L with
  | nil => intro d; rfl
  | cons mv rest ih =>
    intro d
    rw [allMutations, applyMutationList_append]
    simp only [applyBatches]
    cases applyMutationList d mv.mutations
    · rfl
    · exact ih _

theorem applyMutation_wf {d : List KeyValueRef} {m : MutationRef} (hs : KeySorted d)
    (hwf : mutationWF m = true) :
    ∃ d', applyMutation d m = some d' ∧ KeySorted d' := by
  cases m with
  | SetValue k v =>
    exact ⟨mapInsert k v d, rfl, mapInsert_sorted hs⟩
  | ClearRange b e =>
    rw [mutationWF] at hwf
    have h := eraseRange_isSome hwf d
    cases herase : eraseRange b e d with
    | none => rw [herase] at h; exact absurd h (by simp)
    | some d' => exact ⟨d', herase, eraseRange_sorted hs herase⟩

theorem applyMutationList_wf :
    ∀ (ms : List MutationRef) {d : List KeyValueRef}, KeySorted d →
      (∀ m ∈ ms, mutationWF m = true) →
      ∃ d', applyMutationList d ms = some d' ∧ KeySorted d' := by
  intro ms
  induction ms with
  | nil => intro d hs _; exact ⟨d, rfl, hs⟩
  | cons m rest ih =>
    intro d hs hwf
    obtain ⟨d₁, h₁, hs₁⟩ := applyMutation_wf hs (hwf m (by simp))
    obtain ⟨d₂, h₂, hs₂⟩ := ih hs₁ (fun m' hm' => hwf m' (by simp [hm']))
    refine ⟨d₂, ?_, hs₂⟩
    rw [applyMutationList, h₁]
    exact h₂

theorem applyBatches_wf :
    ∀ (L : List MutationsAndVersionRef) {d : List KeyValueRef}, KeySorted d →
      (∀ mv ∈ L, ∀ m ∈ mv.mutations, mutationWF m = true) →
      ∃ d', applyBatches d L = some d' ∧ KeySorted d' := by
  intro L
  induction L with
  | nil => intro d hs _; exact ⟨d, rfl, hs⟩
  | cons mv rest ih =>
    intro d hs hwf
    obtain ⟨d₁, h₁, hs₁⟩ := applyMutationList_wf mv.mutations hs (hwf mv (by simp))
    obtain ⟨d₂, h₂, hs₂⟩ := ih hs₁ (fun mv' hmv' => hwf mv' (by simp [hmv']))
    refine ⟨d₂, ?_, hs₂⟩
    rw [applyBatches, h₁]
    exact h₂

theorem findSome?_append (f : MutationRef → Option Value) :
    ∀ (l₁ l₂ : List MutationRef),
      (l₁ ++ l₂).findSome? f = oor (l₁.findSome? f) (l₂.findSome? f) := by
  intro l₁ l₂
  induction l₁ with
  | nil => rw [List.nil_append, List.findSome?_nil, oor_none]
  | cons a l ih =>
    rw [List.cons_append, List.findSome?_cons, List.findSome?_cons]
    cases f a
    · exact ih
    · rw [oor_some]

theorem lastSetValue_cons (m : MutationRef) (ms : List MutationRef) (k : Key) :
    lastSetValue (m :: ms) k = oor (lastSetValue ms k) (setPayload k m) := by
  rw [lastSetValue, List.reverse_cons, findSome?_append, lastSetValue,
    List.findSome?_cons, List.findSome?_nil]
  cases setPayload k m <;> rfl

theorem applySets_lookup :
    ∀ (ms : List MutationRef) {d : List KeyValueRef}, KeySorted d →
      (∀ m ∈ ms, isSetMutation m = true) →
      ∃ d', applyMutationList d ms = some d' ∧ KeySorted d' ∧
        ∀ k, mapLookup d' k = oor (lastSetValue ms k) (mapLookup d k) := by
  intro ms
  induction ms with
  | nil =>
    intro d hs _
    refine ⟨d, rfl, hs, fun k => ?_⟩
    rw [lastSetValue, List.reverse_nil, List.findSome?_nil, oor_none]
  | cons m rest ih =>
    intro d hs hset
    cases m with
    | ClearRange b e =>
      have := hset (MutationRef.ClearRange b e) (by simp)
      rw [isSetMutation] at this
      exact absurd this (by simp)
    | SetValue k₀ v₀ =>
      obtain ⟨d', hd', hs', hlook⟩ :=
        ih (mapInsert_sorted (k := k₀) (v := v₀) hs) (fun m' hm' => hset m' (by simp [hm']))
      refine ⟨d', ?_, hs', fun k => ?_⟩
      · rw [applyMutationList, applyMutation]
        exact hd'
      · rw [hlook k, mapLookup_insert, lastSetValue_cons, oor_assoc, setPayload]

/-! ### Comparator lemmas -/

theorem compareLoop_self : ∀ (a : List KeyValueRef) (n : Nat), compareLoop n a a = .Match := by
  intro a
  induction a with
  | nil => intro n; rfl
  | cons x xs ih =>
    intro n
    rw [compareLoop, if_pos rfl]
    exact ih (n + 1)

theorem compareLoop_spec :
    ∀ (a b : List KeyValueRef), a.length = b.length → a ≠ b → ∀ (n : Nat),
      ∃ (i : Nat) (x y : KeyValueRef),
        a[i]? = some x ∧ b[i]? = some y ∧ x ≠ y ∧
        compareLoop n a b = .MutationMismatch (n + i) x.key y.key x.value y.value ∧
        (∀ j, j < i → a[j]? = b[j]?) ∧
        compareLoop n (a.take (i + 1)) (b.take (i + 1)) = compareLoop n a b := by
  intro a
  induction a with
  | nil =>
    intro b hlen hne _
    cases b with
    | nil => exact absurd rfl hne
    | cons y ys => exact absurd hlen (by simp)
  | cons x xs ih =>
    intro b hlen hne n
    cases b with
    | nil => exact absurd hlen (by simp)
    | cons y ys =>
      by_cases hxy : x = y
      · subst hxy
        have hlen' : xs.length = ys.length := by simpa using hlen
        have hne' : xs ≠ ys := by
          intro h
          exact hne (by rw [h])
        obtain ⟨i, u, v, hu, hv, huv, hloop, hpre, htrunc⟩ := ih ys hlen' hne' (n + 1)
        refine ⟨i + 1, u, v, ?_, ?_, huv, ?_, ?_, ?_⟩
        · simpa using hu
        · simpa using hv
        · rw [compareLoop, if_pos rfl, hloop]
          congr 1
          omega
        · intro j hj
          cases j with
          | zero => simp
          | succ j' =>
            simp only [List.getElem?_cons_succ]
            exact hpre j' (by omega)
        · rw [List.take_succ_cons, List.take_succ_cons, compareLoop, if_pos rfl, htrunc,
            compareLoop, if_pos rfl]
      · refine ⟨0, x, y, by simp, by simp, hxy, ?_, by omega, ?_⟩
        · rw [compareLoop, if_neg hxy, Nat.add_zero]
        · rw [List.take_succ_cons, List.take_succ_cons, List.take_zero, List.take_zero,
            compareLoop, if_neg hxy, compareLoop, if_neg hxy]

/-! ### Stream-reader lemmas -/

theorem readMutationsLoop_spec :
    ∀ (chunks : List (List MutationsAndVersionRef)),
      (∀ c ∈ chunks, c ≠ []) →
      ∀ (output : List MutationsAndVersionRef) (beginVer : Nat),
        readMutationsLoop output beginVer chunks .endOfStream =
          .ok (output ++ flattenMVChunks chunks) ∧
        (∀ code, readMutationsLoop output beginVer chunks (.streamError code) =
          .propagated code) := by
  intro chunks
  induction chunks with
  | nil =>
    intro _ output beginVer
    rw [flattenMVChunks, List.append_nil]
    exact ⟨rfl, fun _ => rfl⟩
  | cons c rest ih =>
    intro hne output beginVer
    cases c with
    | nil => exact absurd rfl (hne [] (by simp))
    | cons m ms =>
      have ihrest := ih (fun c' hc' => hne c' (by simp [hc']))
      constructor
      · rw [readMutationsLoop, (ihrest _ _).1, flattenMVChunks, List.append_assoc]
      · intro code
        rw [readMutationsLoop, (ihrest _ _).2 code]

theorem readMutationsLoop_undef_iff :
    ∀ (chunks : List (List MutationsAndVersionRef)) (output : List MutationsAndVersionRef)
      (beginVer : Nat) (t : FeedTerminal),
      readMutationsLoop output beginVer chunks t = .undefinedBack ↔ ∃ c ∈ chunks, c = [] := by
  intro chunks
  induction chunks with
  | nil =>
    intro output beginVer t
    constructor
    · intro h
      cases t <;> simp [readMutationsLoop] at h
    · intro ⟨c, hc, _⟩
      exact absurd hc (by simp)
  | cons c rest ih =>
    intro output beginVer t
    cases c with
    | nil =>
      constructor
      · intro _
        exact ⟨[], by simp, rfl⟩
      · intro _
        cases t <;> rfl
    | cons m ms =>
      rw [readMutationsLoop, ih]
      constructor
      · intro ⟨c', hc', hceq⟩
        exact ⟨c', by simp [hc'], hceq⟩
      · intro ⟨c', hc', hceq⟩
        rcases List.mem_cons.mp hc' with h | h
        · rw [h] at hceq
          exact absurd hceq (by simp)
        · exact ⟨c', h, hceq⟩

theorem mem_allMutations {m : MutationRef} :
    ∀ {L : List MutationsAndVersionRef}, m ∈ allMutations L →
      ∃ mv ∈ L, m ∈ mv.mutations := by
  intro L
  induction L with
  | nil => intro h; exact absurd h (by rw [allMutations]; simp)
  | cons mv rest ih =>
    intro h
    rw [allMutations] at h
    rcases List.mem_append.mp h with h' | h'
    · exact ⟨mv, by simp, h'⟩
    · obtain ⟨mv', hmv', hm⟩ := ih h'
      exact ⟨mv', by simp [hmv'], hm⟩

/-! ### Claim theorems -/

/-- C1: for every snapshot `S` and mutation log `L` consisting only of `Set`
mutations (batches in strictly increasing version order), `advanceData S L`
succeeds and maps every key touched by `L` to the value of the last `Set`
for that key in version-then-in-batch order, and every key not touched by
`L` to its original value in `S` (`none` for keys absent from `S`). -/
theorem c1_replay_set_only (S : List KeyValueRef) (L : List MutationsAndVersionRef)
    (hS : KeySorted S)
    (hset : ∀ mv ∈ L, ∀ m ∈ mv.mutations, isSetMutation m = true)
    (hver : L.Pairwise (fun a b => a.version < b.version)) :
    ∃ out, advanceData S L = some out ∧
      (∀ k, lastSetValue (allMutations L) k ≠ none →
        mapLookup out k = lastSetValue (allMutations L) k) ∧
      (∀ k, lastSetValue (allMutations L) k = none →
        mapLookup out k = mapLookup S k) := by
  have hsetflat : ∀ m ∈ allMutations L, isSetMutation m = true := by
    intro m hm
    obtain ⟨mv, hmv, hm'⟩ := mem_allMutations hm
    exact hset mv hmv m hm'
  obtain ⟨out, hout, _, hlook⟩ := applySets_lookup (allMutations L) (seedMap_sorted S) hsetflat
  refine ⟨out, ?_, ?_, ?_⟩
  · rw [advanceData, applyBatches_eq_flat]
    exact hout
  · intro k hk
    rw [hlook k]
    cases h : lastSetValue (allMutations L) k
    · exact absurd h hk
    · rw [oor_some]
  · intro k hk
    rw [hlook k, hk, oor_none, seedMap_lookup]
    rw [KeySorted] at hS
    rw [← seedMap_lookup, seedMap_sorted_id hS]

/-- Witness for C1 at a concrete snapshot and Set-only two-batch log. -/
theorem c1_replay_set_only_witness :
    ∃ out,
      advanceData [⟨[0], [5]⟩, ⟨[1], [6]⟩]
        [⟨[.SetValue [1] [9]], 3⟩, ⟨[.SetValue [2] [4], .SetValue [1] [8]], 7⟩] = some out ∧
      (∀ k, lastSetValue (allMutations
          [⟨[.SetValue [1] [9]], 3⟩, ⟨[.SetValue [2] [4], .SetValue [1] [8]], 7⟩]) k ≠ none →
        mapLookup out k = lastSetValue (allMutations
          [⟨[.SetValue [1] [9]], 3⟩, ⟨[.SetValue [2] [4], .SetValue [1] [8]], 7⟩]) k) ∧
      (∀ k, lastSetValue (allMutations
          [⟨[.SetValue [1] [9]], 3⟩, ⟨[.SetValue [2] [4], .SetValue [1] [8]], 7⟩]) k = none →
        mapLookup out k = mapLookup [⟨[0], [5]⟩, ⟨[1], [6]⟩] k) :=
  c1_replay_set_only [⟨[0], [5]⟩, ⟨[1], [6]⟩]
    [⟨[.SetValue [1] [9]], 3⟩, ⟨[.SetValue [2] [4], .SetValue [1] [8]], 7⟩]
    (by rw [KeySorted]; decide) (by decide) (by decide)

/-- C2 (amended): for a snapshot `S` and bounds with `b ≤ e`, replaying a
single `ClearRange(b, e)` removes exactly the keys `k` with `b ≤ k < e` and
leaves every other entry untouched; `b = e` is a no-op, and a clear whose
half-open interval contains no existing key is a no-op. -/
theorem c2_clear_range_semantics (S : List KeyValueRef) (b e : Key) (ver : Nat)
    (hS : KeySorted S) (hbe : keyLe b e = true) :
    advanceData S [⟨[.ClearRange b e], ver⟩] =
      some (S.filter (fun kv => !(keyLe b kv.key && keyLt kv.key e))) ∧
    (b = e → advanceData S [⟨[.ClearRange b e], ver⟩] = some S) ∧
    ((∀ kv ∈ S, (keyLe b kv.key && keyLt kv.key e) = false) →
      advanceData S [⟨[.ClearRange b e], ver⟩] = some S) := by
  have hmain : advanceData S [⟨[.ClearRange b e], ver⟩] =
      some (S.filter (fun kv => !(keyLe b kv.key && keyLt kv.key e))) := by
    rw [advanceData, seedMap_sorted_id hS]
    simp only [applyBatches, applyMutationList, applyMutation]
    rw [eraseRange_sorted_filter hbe hS]
  refine ⟨hmain, ?_, ?_⟩
  · intro heq
    subst heq
    rw [hmain, List.filter_eq_self.mpr]
    intro kv _
    cases hx : keyLt kv.key b
    · simp [keyLe, hx]
    · simp [keyLe, hx]
  · intro hno
    rw [hmain, List.filter_eq_self.mpr]
    intro kv hkv
    rw [hno kv hkv]
    rfl

/-- Witness for C2's amended theorem at a concrete snapshot and clear. -/
theorem c2_clear_range_semantics_witness :
    advanceData [⟨[0], [5]⟩, ⟨[1], [6]⟩, ⟨[2], [7]⟩] [⟨[.ClearRange [1] [2]], 3⟩] =
      some (([⟨[0], [5]⟩, ⟨[1], [6]⟩, ⟨[2], [7]⟩] : List KeyValueRef).filter
        (fun kv => !(keyLe [1] kv.key && keyLt kv.key [2]))) ∧
    ([1] = ([2] : Key) →
      advanceData [⟨[0], [5]⟩, ⟨[1], [6]⟩, ⟨[2], [7]⟩] [⟨[.ClearRange [1] [2]], 3⟩] =
        some [⟨[0], [5]⟩, ⟨[1], [6]⟩, ⟨[2], [7]⟩]) ∧
    ((∀ kv ∈ ([⟨[0], [5]⟩, ⟨[1], [6]⟩, ⟨[2], [7]⟩] : List KeyValueRef),
        (keyLe [1] kv.key && keyLt kv.key [2]) = false) →
      advanceData [⟨[0], [5]⟩, ⟨[1], [6]⟩, ⟨[2], [7]⟩] [⟨[.ClearRange [1] [2]], 3⟩] =
        some [⟨[0], [5]⟩, ⟨[1], [6]⟩, ⟨[2], [7]⟩]) :=
  c2_clear_range_semantics [⟨[0], [5]⟩, ⟨[1], [6]⟩, ⟨[2], [7]⟩] [1] [2] 3
    (by rw [KeySorted]; decide) (by decide)

/-- Counterexample to C2 as stated: with `b > e` (`b = [2]`, `e = [1]`) on a
snapshot holding the key `[1]`, no key satisfies `b ≤ k < e`, so the claim
predicts a no-op; but `erase(lower_bound([2]), lower_bound([1]))` is an
invalid iterator range (undefined behaviour), so the replay has no defined
result rather than leaving the snapshot untouched. -/
theorem c2_clear_range_counterexample :
    advanceData [⟨[1], [0]⟩] [⟨[.ClearRange [2] [1]], 1⟩] = none ∧
    advanceData [⟨[1], [0]⟩] [⟨[.ClearRange [2] [1]], 1⟩] ≠ some [⟨[1], [0]⟩] := by
  decide

/-- C4: replaying the empty mutation log on a snapshot yields the snapshot
itself, entry for entry. -/
theorem c4_empty_log_identity (S : List KeyValueRef) (hS : KeySorted S) :
    advanceData S [] = some S := by
  rw [advanceData, applyBatches, seedMap_sorted_id hS]

/-- Witness for C4 at a concrete snapshot. -/
theorem c4_empty_log_identity_witness :
    advanceData [⟨[0], [1]⟩, ⟨[2], [3]⟩] [] = some [⟨[0], [1]⟩, ⟨[2], [3]⟩] :=
  c4_empty_log_identity [⟨[0], [1]⟩, ⟨[2], [3]⟩] (by rw [KeySorted]; decide)

/-- C5: replay is order-sensitive. Starting from the empty snapshot, the
batch `Set([0], [7])` at version 1 followed by `ClearRange([], [1])` at
version 2 yields the empty result, while applying the same two batches in
the opposite order yields `{[0] ↦ [7]}`; only the increasing-version order
reproduces the expected outcome. -/
theorem c5_replay_order_sensitive :
    advanceData [] [⟨[.SetValue [0] [7]], 1⟩, ⟨[.ClearRange [] [1]], 2⟩] = some [] ∧
    advanceData [] [⟨[.ClearRange [] [1]], 2⟩, ⟨[.SetValue [0] [7]], 1⟩] =
      some [⟨[0], [7]⟩] ∧
    advanceData [] [⟨[.SetValue [0] [7]], 1⟩, ⟨[.ClearRange [] [1]], 2⟩] ≠
      advanceData [] [⟨[.ClearRange [] [1]], 2⟩, ⟨[.SetValue [0] [7]], 1⟩] := by
  decide

/-- C8: for any input entry list (even unsorted, with duplicate keys) and
any mutation log whose `ClearRange`s have ordered bounds, `advanceData`
succeeds and its output is strictly key-sorted with no duplicate keys;
moreover the seeding of the map makes the last duplicate of a key in the
source win. -/
theorem c8_output_sorted_nodup (source : List KeyValueRef)
    (mutations : List MutationsAndVersionRef)
    (hwf : ∀ mv ∈ mutations, ∀ m ∈ mv.mutations, mutationWF m = true) :
    ∃ out, advanceData source mutations = some out ∧ KeySorted out ∧
      (out.map (fun kv => kv.key)).Nodup ∧
      (∀ k, mapLookup (seedMap source) k = lastValue source k) := by
  obtain ⟨out, hout, hsorted⟩ := applyBatches_wf mutations (seedMap_sorted source) hwf
  refine ⟨out, hout, hsorted, ?_, seedMap_lookup source⟩
  rw [List.Nodup, List.pairwise_map]
  rw [KeySorted] at hsorted
  refine List.Pairwise.imp ?_ hsorted
  intro a b hab heq
  rw [heq, keyLt_irrefl] at hab
  exact Bool.false_ne_true hab

/-- Witness for C8 at an unsorted source with a duplicate key and a log
holding a `Set` and a well-ordered `ClearRange`. -/
theorem c8_output_sorted_nodup_witness :
    ∃ out,
      advanceData [⟨[3], [1]⟩, ⟨[0], [2]⟩, ⟨[3], [9]⟩]
        [⟨[.SetValue [2] [4]], 1⟩, ⟨[.ClearRange [0] [1]], 2⟩] = some out ∧
      KeySorted out ∧ (out.map (fun kv => kv.key)).Nodup ∧
      (∀ k, mapLookup (seedMap [⟨[3], [1]⟩, ⟨[0], [2]⟩, ⟨[3], [9]⟩]) k =
        lastValue [⟨[3], [1]⟩, ⟨[0], [2]⟩, ⟨[3], [9]⟩] k) :=
  c8_output_sorted_nodup [⟨[3], [1]⟩, ⟨[0], [2]⟩, ⟨[3], [9]⟩]
    [⟨[.SetValue [2] [4]], 1⟩, ⟨[.ClearRange [0] [1]], 2⟩] (by decide)

/-- C10: `ClearRange` handling erases the iterator range from
`lower_bound(beginKey)` to `lower_bound(endKey)`; with `beginKey ≤ endKey`
this range is valid on every map state, while for `beginKey > endKey` there
is a map state (one holding the key `endKey`) on which the range is invalid
and the erase has no defined result; consequently replay is defined on
every input whenever every `ClearRange` of the log satisfies
`beginKey ≤ endKey`. -/
theorem c10_erase_requires_ordered_bounds :
    (∀ b e : Key, keyLe b e = true →
      ∀ d : List KeyValueRef, (eraseRange b e d).isSome = true) ∧
    (∀ b e : Key, keyLt e b = true → eraseRange b e [⟨e, []⟩] = none) ∧
    (∀ (S : List KeyValueRef) (L : List MutationsAndVersionRef),
      (∀ mv ∈ L, ∀ m ∈ mv.mutations, mutationWF m = true) →
      (advanceData S L).isSome = true) := by
  refine ⟨fun b e h d => eraseRange_isSome h d, ?_, ?_⟩
  · intro b e h
    simp [eraseRange, lowerBoundIdx, h, keyLt_irrefl]
  · intro S L hwf
    obtain ⟨out, hout, _⟩ := applyBatches_wf L (seedMap_sorted S) hwf
    rw [advanceData, hout]
    rfl

/-- Witness for C10 at concrete bounds and logs. -/
theorem c10_erase_requires_ordered_bounds_witness :
    (eraseRange [0] [1] [⟨[0], [9]⟩]).isSome = true ∧
    eraseRange [2] [1] [⟨[1], []⟩] = none ∧
    (advanceData [⟨[0], [9]⟩] [⟨[.ClearRange [0] [1]], 5⟩]).isSome = true :=
  ⟨c10_erase_requires_ordered_bounds.1 [0] [1] (by decide) [⟨[0], [9]⟩],
   c10_erase_requires_ordered_bounds.2.1 [2] [1] (by decide),
   c10_erase_requires_ordered_bounds.2.2 [⟨[0], [9]⟩] [⟨[.ClearRange [0] [1]], 5⟩] (by decide)⟩

/-- C3: `compareData` reports a size mismatch carrying both lengths whenever
the lengths differ (the result is fully determined by the lengths, so no
element is inspected); `compareData X X` is always `Match`; on equal-length
differing sequences it reports the first index at which the entries differ,
with both sides' key and value there, all earlier entries agreeing, and the
result depending only on the entries up to that index. -/
theorem c3_comparator_correct :
    (∀ source dest : List KeyValueRef, source.length ≠ dest.length →
      compareData source dest = .SizeMismatch source.length dest.length) ∧
    (∀ X : List KeyValueRef, compareData X X = .Match) ∧
    (∀ source dest : List KeyValueRef, source.length = dest.length → source ≠ dest →
      ∃ (i : Nat) (x y : KeyValueRef),
        source[i]? = some x ∧ dest[i]? = some y ∧ x ≠ y ∧
        compareData source dest = .MutationMismatch i x.key y.key x.value y.value ∧
        (∀ j, j < i → source[j]? = dest[j]?) ∧
        compareData (source.take (i + 1)) (dest.take (i + 1)) = compareData source dest) := by
  refine ⟨?_, ?_, ?_⟩
  · intro s d h
    rw [compareData, if_pos h]
  · intro X
    rw [compareData, if_neg (by simp), compareLoop_self]
  · intro s d hlen hne
    obtain ⟨i, x, y, hx, hy, hxy, hloop, hpre, htrunc⟩ := compareLoop_spec s d hlen hne 0
    have hcomp : compareData s d = .MutationMismatch i x.key y.key x.value y.value := by
      rw [compareData, if_neg (by simp [hlen]), hloop, Nat.zero_add]
    refine ⟨i, x, y, hx, hy, hxy, hcomp, hpre, ?_⟩
    have hlen' : (s.take (i + 1)).length = (d.take (i + 1)).length := by
      rw [List.length_take, List.length_take, hlen]
    rw [compareData, if_neg (by simp [hlen']), htrunc, compareData, if_neg (by simp [hlen])]

/-- Witness for C3's three conjuncts at concrete sequences. -/
theorem c3_comparator_correct_witness :
    compareData [⟨[0], [1]⟩] [⟨[0], [1]⟩, ⟨[2], [3]⟩] = .SizeMismatch 1 2 ∧
    compareData [⟨[0], [1]⟩, ⟨[2], [3]⟩] [⟨[0], [1]⟩, ⟨[2], [3]⟩] = .Match ∧
    (∃ (i : Nat) (x y : KeyValueRef),
      ([⟨[0], [1]⟩, ⟨[2], [3]⟩] : List KeyValueRef)[i]? = some x ∧
      ([⟨[0], [1]⟩, ⟨[2], [4]⟩] : List KeyValueRef)[i]? = some y ∧ x ≠ y ∧
      compareData [⟨[0], [1]⟩, ⟨[2], [3]⟩] [⟨[0], [1]⟩, ⟨[2], [4]⟩] =
        .MutationMismatch i x.key y.key x.value y.value ∧
      (∀ j, j < i →
        ([⟨[0], [1]⟩, ⟨[2], [3]⟩] : List KeyValueRef)[j]? =
          ([⟨[0], [1]⟩, ⟨[2], [4]⟩] : List KeyValueRef)[j]?) ∧
      compareData (([⟨[0], [1]⟩, ⟨[2], [3]⟩] : List KeyValueRef).take (i + 1))
          (([⟨[0], [1]⟩, ⟨[2], [4]⟩] : List KeyValueRef).take (i + 1)) =
        compareData [⟨[0], [1]⟩, ⟨[2], [3]⟩] [⟨[0], [1]⟩, ⟨[2], [4]⟩]) :=
  ⟨c3_comparator_correct.1 [⟨[0], [1]⟩] [⟨[0], [1]⟩, ⟨[2], [3]⟩] (by decide),
   c3_comparator_correct.2.1 [⟨[0], [1]⟩, ⟨[2], [3]⟩],
   c3_comparator_correct.2.2 [⟨[0], [1]⟩, ⟨[2], [3]⟩] [⟨[0], [1]⟩, ⟨[2], [4]⟩]
     (by decide) (by decide)⟩

/-- C6: whenever `readDatabase` returns, its result is the data of a single
attempt that ended with `end_of_stream` — read at that attempt's own read
version, with every earlier attempt having failed retryably and its partial
accumulation discarded — so the snapshot never mixes data read at two
different versions. -/
theorem c6_snapshot_single_version (attempts : List ReadAttempt)
    (kvs : List KeyValueRef) (v : Nat)
    (h : readDatabase attempts = some (kvs, v)) :
    ∃ i, ∃ hi : i < attempts.length,
      (attempts.get ⟨i, hi⟩).terminal = .endOfStream ∧
      kvs = flattenKVChunks (attempts.get ⟨i, hi⟩).chunks ∧
      v = (attempts.get ⟨i, hi⟩).readVersion ∧
      ∀ a ∈ attempts.take i, a.terminal = .retryableError := by
  induction attempts with
  | nil => exact absurd h (by rw [readDatabase]; simp)
  | cons a rest ih =>
    rw [readDatabase] at h
    cases ht : a.terminal with
    | endOfStream =>
      rw [ht] at h
      simp only [Option.some.injEq, Prod.mk.injEq] at h
      refine ⟨0, by simp, ?_, ?_, ?_, ?_⟩
      · simpa using ht
      · simpa using h.1.symm
      · simpa using h.2.symm
      · intro a' ha'
        exact absurd ha' (by simp)
    | retryableError =>
      rw [ht] at h
      obtain ⟨i, hi, h₁, h₂, h₃, h₄⟩ := ih h
      refine ⟨i + 1, by simpa using Nat.succ_lt_succ hi, ?_, ?_, ?_, ?_⟩
      · simpa using h₁
      · simpa using h₂
      · simpa using h₃
      · intro a' ha'
        rw [List.take_succ_cons] at ha'
        rcases List.mem_cons.mp ha' with h' | h'
        · rw [h']; exact ht
        · exact h₄ a' h'
    | fatalError =>
      rw [ht] at h
      exact absurd h (by simp)

/-- Witness for C6: one retryable attempt followed by a successful one. -/
theorem c6_snapshot_single_version_witness :
    ∃ i, ∃ hi : i < ([⟨10, [[⟨[0], [1]⟩]], .retryableError⟩,
        ⟨12, [[⟨[2], [3]⟩], [⟨[4], [5]⟩]], .endOfStream⟩] : List ReadAttempt).length,
      (([⟨10, [[⟨[0], [1]⟩]], .retryableError⟩,
        ⟨12, [[⟨[2], [3]⟩], [⟨[4], [5]⟩]], .endOfStream⟩] : List ReadAttempt).get
          ⟨i, hi⟩).terminal = .endOfStream ∧
      [⟨[2], [3]⟩, ⟨[4], [5]⟩] = flattenKVChunks
        (([⟨10, [[⟨[0], [1]⟩]], .retryableError⟩,
          ⟨12, [[⟨[2], [3]⟩], [⟨[4], [5]⟩]], .endOfStream⟩] : List ReadAttempt).get
            ⟨i, hi⟩).chunks ∧
      12 = (([⟨10, [[⟨[0], [1]⟩]], .retryableError⟩,
        ⟨12, [[⟨[2], [3]⟩], [⟨[4], [5]⟩]], .endOfStream⟩] : List ReadAttempt).get
          ⟨i, hi⟩).readVersion ∧
      ∀ a ∈ ([⟨10, [[⟨[0], [1]⟩]], .retryableError⟩,
        ⟨12, [[⟨[2], [3]⟩], [⟨[4], [5]⟩]], .endOfStream⟩] : List ReadAttempt).take i,
        a.terminal = .retryableError :=
  c6_snapshot_single_version
    [⟨10, [[⟨[0], [1]⟩]], .retryableError⟩,
     ⟨12, [[⟨[2], [3]⟩], [⟨[4], [5]⟩]], .endOfStream⟩]
    [⟨[2], [3]⟩, ⟨[4], [5]⟩] 12 (by decide)

/-- C7: `readMutations` terminates normally with the accumulated sequence
exactly when the stream ends with `end_of_stream`; any other stream error
is propagated to the caller unchanged (same error), with no transparent
retry. -/
theorem c7_mutation_log_termination (beginVer : Nat)
    (chunks : List (List MutationsAndVersionRef))
    (h : ∀ c ∈ chunks, c ≠ []) :
    readMutations beginVer chunks .endOfStream = .ok (flattenMVChunks chunks) ∧
    ∀ code, readMutations beginVer chunks (.streamError code) = .propagated code := by
  have hspec := readMutationsLoop_spec chunks h [] beginVer
  constructor
  · rw [readMutations, hspec.1, List.nil_append]
  · intro code
    rw [readMutations]
    exact hspec.2 code

/-- Witness for C7 at a concrete two-chunk stream. -/
theorem c7_mutation_log_termination_witness :
    readMutations 4 [[⟨[.SetValue [0] [1]], 5⟩], [⟨[.ClearRange [0] [2]], 6⟩]]
      .endOfStream = .ok (flattenMVChunks
        [[⟨[.SetValue [0] [1]], 5⟩], [⟨[.ClearRange [0] [2]], 6⟩]]) ∧
    ∀ code, readMutations 4 [[⟨[.SetValue [0] [1]], 5⟩], [⟨[.ClearRange [0] [2]], 6⟩]]
      (.streamError code) = .propagated code :=
  c7_mutation_log_termination 4
    [[⟨[.SetValue [0] [1]], 5⟩], [⟨[.ClearRange [0] [2]], 6⟩]] (by decide)

/-- C9: `readMutations` advances its cursor through `res.back()` without an
emptiness check, so its behaviour is defined exactly when every chunk the
change-feed stream delivers is non-empty: the result is the undefined
`back()` on an empty vector precisely when some delivered chunk is empty,
whatever the stream's terminal event. -/
theorem c9_empty_chunk_undefined (beginVer : Nat)
    (chunks : List (List MutationsAndVersionRef)) (t : FeedTerminal) :
    readMutations beginVer chunks t = .undefinedBack ↔ ∃ c ∈ chunks, c = [] := by
  rw [readMutations]
  exact readMutationsLoop_undef_iff chunks [] beginVer t

end ChangeFeeds
